import Mathlib

/-!
Shallow embedding of the zero-finding core of the Riemann repository
(src/src/zeros_odlyzko.py, src/src/riemann_siegel.py, src/src/fft_helpers.py).

Modelling conventions:
* Python floats and mpmath arbitrary-precision numbers are modelled as exact
  real numbers `ℝ`; the `precision` parameter is carried in the data model but
  has no effect on exact-real semantics.
* The external reference evaluator `mpmath.zeta` is modelled by Mathlib's
  `riemannZeta`; `mpmath.zetazero(1).imag` is modelled by `zetazero1_im` below.
* `mpmath.loggamma` is modelled by the principal branch `Complex.log ∘
  Complex.Gamma` (the two agree near the positive real axis, in particular for
  the small arguments used in the proofs below).
* Python's built-in `round` (round half to even) is modelled by `pyRound`.
* Fallible code paths (a numpy broadcast `ValueError`) are modelled by
  `Option`: `none` is a raised exception.
-/

noncomputable section

/-- Python's built-in `round`: round half to even (banker's rounding), as used
by `int(round(x))` in the source. -/
def pyRound (x : ℝ) : ℤ :=
  if Int.fract x = 1 / 2 then (if ⌊x⌋ % 2 = 0 then ⌊x⌋ else ⌊x⌋ + 1) else round x

/-- Number of samples produced by `numpy.arange(start, stop, step)`:
`⌈(stop - start)/step⌉`, clamped at zero. -/
def arangeLen (start stop step : ℝ) : ℕ := (⌈(stop - start) / step⌉).toNat

/-- Configuration dataclass `OdlyzkoConfig` of src/src/zeros_odlyzko.py
(constructor inputs; the fields derived in `__post_init__` follow as
functions). -/
structure OdlyzkoConfig where
  T_start : ℝ
  T_end : ℝ
  precision : ℤ := 50
  grid_factor : ℝ := 1
  max_taylor_terms : ℤ := 10

namespace OdlyzkoConfig

/-- Derived field `T_mid = (T_start + T_end) / 2`. -/
def T_mid (c : OdlyzkoConfig) : ℝ := (c.T_start + c.T_end) / 2

/-- Derived field `delta_T = T_end - T_start`. -/
def delta_T (c : OdlyzkoConfig) : ℝ := c.T_end - c.T_start

/-- Derived field `delta = grid_factor / sqrt(T_mid)`. -/
def delta (c : OdlyzkoConfig) : ℝ := c.grid_factor / Real.sqrt c.T_mid

/-- Derived field `R = int(2 ** ceil(log2(delta_T / delta)))`.  The float
power of two is exact, and `int` truncation of a positive value is `⌊·⌋`. -/
def R (c : OdlyzkoConfig) : ℤ := ⌊(2 : ℝ) ^ ⌈Real.logb 2 (c.delta_T / c.delta)⌉⌋

/-- Derived field `k0 = 2` (a literal constant in `__post_init__`). -/
def k0 (_ : OdlyzkoConfig) : ℤ := 2

/-- Derived field `k1 = int(floor(sqrt(T_mid / (2 * pi))))`. -/
def k1 (c : OdlyzkoConfig) : ℤ := ⌊Real.sqrt (c.T_mid / (2 * Real.pi))⌋

end OdlyzkoConfig

/-- The phase `theta` computed inline in src/src/riemann_siegel.py
(both in `zeta_riemann_siegel` and in `riemann_siegel_z`):
`theta = (t/2)*log(t/(2*pi)) - t/2 - pi/8`. -/
def rs_theta (t : ℝ) : ℝ :=
  t / 2 * Real.log (t / (2 * Real.pi)) - t / 2 - Real.pi / 8

/-- `zeta_riemann_siegel(t, terms, precision)` of src/src/riemann_siegel.py.
With an explicit `terms` value it delegates to the reference evaluator
(`mp.zeta`, modelled by `riemannZeta`) at `s = 1/2 + i t`; with `terms = None`
it returns `e^{i theta} * S + R` with `S = Σ_{n=1}^{N} n^{-1/2-it}`,
`N = ⌊sqrt(t/(2π))⌋` and `R = 0`. -/
def zeta_riemann_siegel (t : ℝ) (terms : Option ℤ) : ℂ :=
  match terms with
  | some _ => riemannZeta (1 / 2 + (t : ℂ) * Complex.I)
  | none =>
    let N : ℤ := ⌊Real.sqrt (t / (2 * Real.pi))⌋
    let prefactor : ℂ := Complex.exp ((rs_theta t : ℂ) * Complex.I)
    let S : ℂ := ∑ n in Finset.Icc 1 N, (n : ℂ) ^ (-(1 / 2 + (t : ℂ) * Complex.I))
    let Rterm : ℂ := 0
    prefactor * S + Rterm

/-- `riemann_siegel_z(t, precision)` of src/src/riemann_siegel.py:
`Re(zeta_riemann_siegel(t) * e^{-i theta})`. -/
def riemann_siegel_z (t : ℝ) : ℝ :=
  (zeta_riemann_siegel t none * Complex.exp ((-(rs_theta t) : ℝ) * Complex.I)).re

/-- One-to-one translation of the scan loop of `find_zeros_riemann_siegel`:
starting from sample `prev_t`, perform `n` loop iterations; each iteration
advances by `step`, records the midpoint when the product of consecutive
`Z`-values is strictly negative, and continues. -/
def rsScan (Z : ℝ → ℝ) (step : ℝ) : ℝ → ℕ → List ℝ
  | _, 0 => []
  | prev_t, Nat.succ n =>
    (if Z prev_t * Z (prev_t + step) < 0
      then [(prev_t + (prev_t + step)) / 2] else []) ++ rsScan Z step (prev_t + step) n

/-- `find_zeros_riemann_siegel(t_start, t_end, step, precision)` of
src/src/riemann_siegel.py.  The while-loop over `t = t_start + k*step`
(`k = 1, 2, ...` while `t ≤ t_end`) performs exactly
`⌊(t_end - t_start)/step⌋` iterations in exact-real semantics. -/
def find_zeros_riemann_siegel (t_start t_end step : ℝ) : List ℝ :=
  rsScan riemann_siegel_z step t_start (⌊(t_end - t_start) / step⌋).toNat

/-- The body of one scan iteration: the optional midpoint recorded for the
consecutive pair `(prev, prev + step)`. -/
def rsCross (Z : ℝ → ℝ) (step prev : ℝ) : Option ℝ :=
  if Z prev * Z (prev + step) < 0 then some ((prev + (prev + step)) / 2) else none

/-- Discrete Fourier transform of a list, as computed by `scipy.fft.fft`:
`X_k = Σ_j x_j · e^{-2πi·jk/n}`. -/
def dft (g : List ℂ) (k : ℕ) : ℂ :=
  ∑ j in Finset.range g.length,
    g.getD j 0 * Complex.exp (-(2 * (Real.pi : ℂ) * Complex.I) * j * k / g.length)

/-- The zero-padded spectrum assembled by `FFTInterpolator.interpolate`:
`freq[:half] = fft_data[:half]; freq[-half:] = fft_data[half:]` with
`half = n // 2` on an array of length `pad = 2n`.  numpy broadcasting makes
the second assignment well-defined exactly when the right-hand side has
length `half` (even `n`) or length 1 (`n = 1`, where `freq[-0:]` is the whole
array); for odd `n ≥ 3` it raises a broadcast `ValueError`, modelled as
`none`. -/
def specAssemble (g : List ℂ) : Option (ℕ → ℂ) :=
  let n := g.length
  if n = 1 then some (fun _ => dft g 0)
  else if n % 2 = 0 then
    some (fun k =>
      if k < n / 2 then dft g k
      else if 2 * n - n / 2 ≤ k then dft g (k - n)
      else 0)
  else none

/-- Entry `j` of `ifft(freq) * 2` for a spectrum of length `pad`:
`2 · (1/pad) · Σ_k freq_k · e^{2πi·kj/pad}` (scipy inverse DFT). -/
def ifft2 (pad : ℕ) (freq : ℕ → ℂ) (j : ℕ) : ℂ :=
  2 * ((1 : ℂ) / pad) * ∑ k in Finset.range pad,
    freq k * Complex.exp (2 * (Real.pi : ℂ) * Complex.I * k * j / pad)

/-- `FFTInterpolator.interpolate(t)` of src/src/fft_helpers.py, as a function
of the constructor data `(grid_data, delta, t_start)` and the query point `t`.
`none` models a raised exception (the numpy broadcast `ValueError` of the
spectrum assembly for odd sizes `≥ 3`). -/
def FFTInterpolator.interpolate (g : List ℂ) (δ t0 t : ℝ) : Option ℂ :=
  let x : ℝ := if δ ≠ 0 then (t - t0) / δ else 0
  let n := g.length
  if n = 0 then some 0
  else if x < 0 ∨ (n : ℝ) ≤ x then
    if x < 0 ∧ 1 < n then
      some (g.getD 0 0 + (g.getD 1 0 - g.getD 0 0) / (δ : ℂ) * ((t - t0 : ℝ) : ℂ))
    else if 1 < n then
      some (g.getD (n - 1) 0 +
        (g.getD (n - 1) 0 - g.getD (n - 2) 0) / (δ : ℂ) *
          ((t - (t0 + (n - 1) * δ) : ℝ) : ℂ))
    else some (g.getD 0 0)
  else
    match specAssemble g with
    | none => none
    | some freq =>
      let idx := pyRound (x * 2)
      if 0 ≤ idx ∧ idx < (2 * n : ℤ) then some (ifft2 (2 * n) freq idx.toNat)
      else some (g.getD (n - 1) 0)

/-- `OdlyzkoSchoenhage.siegeltheta(t)` of src/src/zeros_odlyzko.py:
`theta = (Im loggamma(1/4 + it/2) - Im conj(loggamma(1/4 + it/2)))/2
 - t·log(π)/2`, with `mpmath.loggamma` modelled by the principal branch
`Complex.log ∘ Complex.Gamma`. -/
def OdlyzkoSchoenhage.siegeltheta (t : ℝ) : ℝ :=
  let lg := Complex.log (Complex.Gamma ((1 / 4 : ℂ) + ((t / 2 : ℝ) : ℂ) * Complex.I))
  (lg.im - ((starRingEnd ℂ) lg).im) / 2 - t * Real.log Real.pi / 2

/-- `OdlyzkoSchoenhage.core_sum_F(t)`:
`F(t) = Σ_{k=k0}^{k1} (1/√k) · e^{-i·t·log k}` (`range(k0, k1+1)`). -/
def OdlyzkoSchoenhage.core_sum_F (c : OdlyzkoConfig) (t : ℝ) : ℂ :=
  ∑ k in Finset.Icc c.k0 c.k1,
    (1 / ((Real.sqrt (k : ℝ) : ℝ) : ℂ)) *
      Complex.exp (-Complex.I * (t : ℂ) * ((Real.log (k : ℝ) : ℝ) : ℂ))

/-- Mutable state of an `OdlyzkoSchoenhage` engine instance:
`_grid_values` and `_precomputed`, plus an instrumentation counter
`recompute_count` recording how many times the body of `precompute_grid` has
executed (the source has no such field; it makes the operational notion
"the grid is recomputed" expressible in value semantics). -/
structure EngineState where
  grid_values : List ℂ
  precomputed : Bool
  recompute_count : ℕ

/-- `OdlyzkoSchoenhage.__init__`: empty grid, not precomputed. -/
def OdlyzkoSchoenhage.init : EngineState := ⟨[], false, 0⟩

/-- Grid sample points `linspace(T_start, T_start + (R-1)·delta, R)`:
the `j`-th point is `T_start + j·delta`. -/
def OdlyzkoSchoenhage.grid_t (c : OdlyzkoConfig) (j : ℕ) : ℝ := c.T_start + j * c.delta

/-- The grid of `F`-values written by `precompute_grid`. -/
def OdlyzkoSchoenhage.the_grid (c : OdlyzkoConfig) : List ℂ :=
  (List.range c.R.toNat).map fun j => OdlyzkoSchoenhage.core_sum_F c (OdlyzkoSchoenhage.grid_t c j)

/-- `OdlyzkoSchoenhage.precompute_grid()`: unconditionally recompute the grid,
store it, and set the `_precomputed` flag (there is no guard in this method;
the instrumentation counter records the re-execution). -/
def OdlyzkoSchoenhage.precompute_grid (c : OdlyzkoConfig) (s : EngineState) : EngineState :=
  { grid_values := OdlyzkoSchoenhage.the_grid c
    precomputed := true
    recompute_count := s.recompute_count + 1 }

/-- The value computed by `fft_interpolation` from a grid list `g`:
nearest grid index (clamped to `[0, R-1]`), plus a centred finite-difference
linear correction when `|t - t_j| > 1e-12`. -/
def OdlyzkoSchoenhage.interp_value (c : OdlyzkoConfig) (g : List ℂ) (t : ℝ) : ℂ :=
  let j : ℤ := max 0 (min (pyRound ((t - c.T_start) / c.delta)) (c.R - 1))
  let dt := t - (c.T_start + (j : ℝ) * c.delta)
  let result := g.getD j.toNat 0
  if |dt| > 1e-12 then
    let f_plus := g.getD (min (j + 1) (c.R - 1)).toNat 0
    let f_minus := g.getD (max (j - 1) 0).toNat 0
    result + (f_plus - f_minus) / (2 * (c.delta : ℂ)) * ((dt : ℝ) : ℂ)
  else result

/-- `OdlyzkoSchoenhage.fft_interpolation(t)`: lazily precompute the grid if the
flag is not set (the only idempotence guard in the source), then interpolate
from the stored grid; returns the successor state and the value. -/
def OdlyzkoSchoenhage.fft_interpolation (c : OdlyzkoConfig) (s : EngineState) (t : ℝ) :
    EngineState × ℂ :=
  let s' := if s.precomputed then s else OdlyzkoSchoenhage.precompute_grid c s
  (s', OdlyzkoSchoenhage.interp_value c s'.grid_values t)

/-- `OdlyzkoSchoenhage.compute_Z_function(t)`:
`Z(t) = 2·Re(e^{-iθ(t)}·F(t)) + rem`, `rem = 0.1/t^0.25` for `t > 10` else
`0.01`.  Value-level semantics: by the lazy guard, in every zero-scan context
the grid read by `fft_interpolation` is `the_grid c`. -/
def OdlyzkoSchoenhage.compute_Z_function (c : OdlyzkoConfig) (t : ℝ) : ℝ :=
  let theta := OdlyzkoSchoenhage.siegeltheta t
  let F_val := OdlyzkoSchoenhage.interp_value c (OdlyzkoSchoenhage.the_grid c) t
  let main_term := 2 * (Complex.exp ((-theta : ℝ) * Complex.I) * F_val).re
  let rem := if t > 10 then 0.1 / t ^ (0.25 : ℝ) else 0.01
  main_term + rem

/-- One iteration of the bisection while-loop of `find_zeros_in_range`:
if `right - left > 1e-8`, evaluate the midpoint and keep the half-interval
where the sign change lies; otherwise leave the pair unchanged (loop exit). -/
def bstep (Z : ℝ → ℝ) (p : ℝ × ℝ) : ℝ × ℝ :=
  if p.2 - p.1 > 1e-8 then
    if Z p.1 * Z ((p.1 + p.2) / 2) < 0 then (p.1, (p.1 + p.2) / 2)
    else ((p.1 + p.2) / 2, p.2)
  else p

/-- Enough iterations for the bisection loop to reach its exit condition:
`⌈log₂((r-l)·10⁸)⌉`, clamped at zero. -/
def bisectFuel (l r : ℝ) : ℕ := (⌈Real.logb 2 ((r - l) * 1e8)⌉).toNat

/-- Denotation of the bisection while-loop on the bracket `(l, r)`:
iterate `bstep` until (provably, below) the exit condition holds. -/
def bisect_refine (Z : ℝ → ℝ) (l r : ℝ) : ℝ × ℝ := (bstep Z)^[bisectFuel l r] (l, r)

/-- The list `zeros` built by the scan loop of
`OdlyzkoSchoenhage.find_zeros_in_range` before the fallback: sample
`ts = arange(T_start, T_end + step, step)` (so `ts_i = T_start + i·step`),
and for each `i` with `zs_i · zs_{i+1} < 0` append the midpoint of the
bisection-refined bracket. -/
def OdlyzkoSchoenhage.raw_zeros (c : OdlyzkoConfig) (step : ℝ) : List ℝ :=
  let n := arangeLen c.T_start (c.T_end + step) step
  (List.range (n - 1)).filterMap fun i =>
    let ti := c.T_start + i * step
    let ti1 := c.T_start + (i + 1) * step
    if OdlyzkoSchoenhage.compute_Z_function c ti * OdlyzkoSchoenhage.compute_Z_function c ti1 < 0
    then
      let p := bisect_refine (OdlyzkoSchoenhage.compute_Z_function c) ti ti1
      some ((p.1 + p.2) / 2)
    else none

/-- Model of the external reference value `mpmath.zetazero(1).imag`: the
height of the first nontrivial zero of the Riemann zeta function on the
critical line. -/
def zetazero1_im : ℝ := sInf {t : ℝ | 0 < t ∧ riemannZeta (1 / 2 + (t : ℂ) * Complex.I) = 0}

/-- The step-size default of `find_zeros_in_range`: `delta/10` when the
caller passes `None` or a non-positive step. -/
def effStep (c : OdlyzkoConfig) : Option ℝ → ℝ
  | none => c.delta / 10
  | some s => if s ≤ 0 then c.delta / 10 else s

/-- `OdlyzkoSchoenhage.find_zeros_in_range(step)`: the scan-and-refine list,
with the single reference zero substituted when it is empty. -/
def OdlyzkoSchoenhage.find_zeros_in_range (c : OdlyzkoConfig) (step0 : Option ℝ) : List ℝ :=
  if OdlyzkoSchoenhage.raw_zeros c (effStep c step0) = [] then [zetazero1_im]
  else OdlyzkoSchoenhage.raw_zeros c (effStep c step0)

/-- A concrete configuration with a short low interval (`T_mid = 1.1`),
used to probe the derived-field invariants. -/
def cfgSmall : OdlyzkoConfig := ⟨1, 1.2, 50, 1, 10⟩

/-- A concrete configuration with a long high interval (`T_mid = 35`),
satisfying all derived-field invariants. -/
def cfgBig : OdlyzkoConfig := ⟨10, 60, 50, 1, 10⟩

/-- One bisection step keeps the pair inside the old pair and ordered. -/
lemma bstep_bounds (Z : ℝ → ℝ) (p : ℝ × ℝ) (h : p.1 ≤ p.2) :
    p.1 ≤ (bstep Z p).1 ∧ (bstep Z p).2 ≤ p.2 ∧ (bstep Z p).1 ≤ (bstep Z p).2 := by
  unfold bstep
  split_ifs with h1 h2
  · refine ⟨le_rfl, ?_, ?_⟩ <;> (dsimp only; linarith)
  · refine ⟨?_, le_rfl, ?_⟩ <;> (dsimp only; linarith)
  · exact ⟨le_rfl, le_rfl, h⟩

/-- While the exit condition fails, each bisection step halves the width. -/
lemma bstep_halves (Z : ℝ → ℝ) (p : ℝ × ℝ) (h : 1e-8 < p.2 - p.1) :
    (bstep Z p).2 - (bstep Z p).1 = (p.2 - p.1) / 2 := by
  unfold bstep
  rw [if_pos h]
  split_ifs <;> (dsimp only; ring)

/-- Once the exit condition holds, a bisection step is the identity. -/
lemma bstep_fixed (Z : ℝ → ℝ) (p : ℝ × ℝ) (h : p.2 - p.1 ≤ 1e-8) : bstep Z p = p := by
  unfold bstep
  rw [if_neg (not_lt.mpr h)]

/-- Iterated bisection stays within the initial bracket. -/
lemma bstep_iterate_bounds (Z : ℝ → ℝ) (p : ℝ × ℝ) (h : p.1 ≤ p.2) (n : ℕ) :
    p.1 ≤ ((bstep Z)^[n] p).1 ∧ ((bstep Z)^[n] p).2 ≤ p.2 ∧
      ((bstep Z)^[n] p).1 ≤ ((bstep Z)^[n] p).2 := by
  induction n with
  | zero => exact ⟨le_rfl, le_rfl, h⟩
  | succ n ih =>
    simp only [Function.iterate_succ_apply']
    obtain ⟨h1, h2, h3⟩ := ih
    have hb := bstep_bounds Z ((bstep Z)^[n] p) h3
    exact ⟨le_trans h1 hb.1, le_trans hb.2.1 h2, hb.2.2⟩

/-- After `n` bisection steps the width is at most
`max ((initial width)/2^n) 1e-8`. -/
lemma bstep_iterate_width (Z : ℝ → ℝ) (p : ℝ × ℝ) (n : ℕ) :
    ((bstep Z)^[n] p).2 - ((bstep Z)^[n] p).1 ≤ max ((p.2 - p.1) / 2 ^ n) 1e-8 := by
  induction n with
  | zero => simpa using le_max_left _ _
  | succ n ih =>
    simp only [Function.iterate_succ_apply']
    rcases le_or_lt (((bstep Z)^[n] p).2 - ((bstep Z)^[n] p).1) 1e-8 with hle | hgt
    · rw [bstep_fixed Z _ hle]
      exact le_trans hle (le_max_right _ _)
    · rw [bstep_halves Z _ hgt]
      have h2 : (((bstep Z)^[n] p).2 - ((bstep Z)^[n] p).1) / 2 ≤
          max ((p.2 - p.1) / 2 ^ n) 1e-8 / 2 := by linarith
      refine le_trans h2 ?_
      rcases max_cases ((p.2 - p.1) / 2 ^ n) (1e-8 : ℝ) with ⟨hm, -⟩ | ⟨hm, -⟩
      · rw [hm, show (p.2 - p.1) / 2 ^ n / 2 = (p.2 - p.1) / 2 ^ (n + 1) by
          rw [pow_succ]; ring]
        exact le_max_left _ _
      · rw [hm]
        refine le_trans ?_ (le_max_right _ _)
        norm_num

/-- The fuel `⌈log₂((r-l)·10⁸)⌉` suffices to bring the width of the initial
bracket below the exit tolerance. -/
lemma bisectFuel_sufficient (l r : ℝ) (h : l < r) :
    (r - l) / 2 ^ bisectFuel l r ≤ 1e-8 := by
  unfold bisectFuel
  have ha0 : (0:ℝ) < (r - l) * 1e8 := by
    have : (0:ℝ) < r - l := by linarith
    positivity
  have hs : (r - l) * 1e8 ≤ 2 ^ (⌈Real.logb 2 ((r - l) * 1e8)⌉.toNat) := by
    rcases le_or_lt ((r - l) * 1e8) 1 with h1 | h1
    · calc (r - l) * 1e8 ≤ 1 := h1
        _ ≤ 2 ^ ⌈Real.logb 2 ((r - l) * 1e8)⌉.toNat := one_le_pow₀ (by norm_num)
    · have hceil : (0:ℤ) ≤ ⌈Real.logb 2 ((r - l) * 1e8)⌉ :=
        Int.ceil_nonneg (Real.logb_nonneg (by norm_num) h1.le)
      have h2 : (r - l) * 1e8 ≤ (2:ℝ) ^ ((⌈Real.logb 2 ((r - l) * 1e8)⌉ : ℤ) : ℝ) := by
        calc (r - l) * 1e8 = (2:ℝ) ^ Real.logb 2 ((r - l) * 1e8) :=
              (Real.rpow_logb (by norm_num) (by norm_num) ha0).symm
          _ ≤ (2:ℝ) ^ ((⌈Real.logb 2 ((r - l) * 1e8)⌉ : ℤ) : ℝ) :=
              (Real.rpow_le_rpow_left_iff (by norm_num)).mpr (Int.le_ceil _)
      have hcast : ((⌈Real.logb 2 ((r - l) * 1e8)⌉.toNat : ℕ) : ℝ) =
          ((⌈Real.logb 2 ((r - l) * 1e8)⌉ : ℤ) : ℝ) := by
        exact_mod_cast Int.toNat_of_nonneg hceil
      rw [← hcast] at h2
      rwa [Real.rpow_natCast] at h2
  have hp : (0:ℝ) < 2 ^ (⌈Real.logb 2 ((r - l) * 1e8)⌉.toNat) := by positivity
  rw [div_le_iff₀ hp]
  nlinarith

/-- C6: on every bracket `(l, r)` with `l < r`, the bisection loop of
`find_zeros_in_range` terminates (the iterate reaches a fixed point of the
loop body, i.e. the exit condition `right - left ≤ 1e-8` holds), each
iteration halves the width while the exit condition fails, and the final
bracket — hence the returned midpoint — lies inside the initial bracket. -/
theorem bisect_refine_spec (Z : ℝ → ℝ) (l r : ℝ) (h : l < r) :
    (bisect_refine Z l r).2 - (bisect_refine Z l r).1 ≤ 1e-8 ∧
    bstep Z (bisect_refine Z l r) = bisect_refine Z l r ∧
    l ≤ (bisect_refine Z l r).1 ∧
    (bisect_refine Z l r).1 ≤ (bisect_refine Z l r).2 ∧
    (bisect_refine Z l r).2 ≤ r ∧
    l ≤ ((bisect_refine Z l r).1 + (bisect_refine Z l r).2) / 2 ∧
    ((bisect_refine Z l r).1 + (bisect_refine Z l r).2) / 2 ≤ r ∧
    ∀ q : ℝ × ℝ, 1e-8 < q.2 - q.1 → (bstep Z q).2 - (bstep Z q).1 = (q.2 - q.1) / 2 := by
  have hb := bstep_iterate_bounds Z (l, r) (le_of_lt h) (bisectFuel l r)
  have hw := bstep_iterate_width Z (l, r) (bisectFuel l r)
  have hf := bisectFuel_sufficient l r h
  have hwidth : (bisect_refine Z l r).2 - (bisect_refine Z l r).1 ≤ 1e-8 := by
    refine le_trans hw (max_le hf le_rfl)
  have hl : l ≤ (bisect_refine Z l r).1 := hb.1
  have hr : (bisect_refine Z l r).2 ≤ r := hb.2.1
  have ho : (bisect_refine Z l r).1 ≤ (bisect_refine Z l r).2 := hb.2.2
  exact ⟨hwidth, bstep_fixed Z _ hwidth, hl, ho, hr, by linarith, by linarith,
    fun q hq => bstep_halves Z q hq⟩

/-- Witness for C6 on the bracket `(0, 1)` with the zero evaluator. -/
theorem bisect_refine_spec_witness :
    (0:ℝ) < 1 ∧
    ((bisect_refine (fun _ => 0) 0 1).2 - (bisect_refine (fun _ => 0) 0 1).1 ≤ 1e-8 ∧
    bstep (fun _ => 0) (bisect_refine (fun _ => 0) 0 1) = bisect_refine (fun _ => 0) 0 1 ∧
    (0:ℝ) ≤ (bisect_refine (fun _ => 0) 0 1).1 ∧
    (bisect_refine (fun _ => 0) 0 1).1 ≤ (bisect_refine (fun _ => 0) 0 1).2 ∧
    (bisect_refine (fun _ => 0) 0 1).2 ≤ 1 ∧
    (0:ℝ) ≤ ((bisect_refine (fun _ => 0) 0 1).1 + (bisect_refine (fun _ => 0) 0 1).2) / 2 ∧
    ((bisect_refine (fun _ => 0) 0 1).1 + (bisect_refine (fun _ => 0) 0 1).2) / 2 ≤ 1 ∧
    ∀ q : ℝ × ℝ, 1e-8 < q.2 - q.1 →
      (bstep (fun _ => 0) q).2 - (bstep (fun _ => 0) q).1 = (q.2 - q.1) / 2) :=
  ⟨by norm_num, bisect_refine_spec (fun _ => 0) 0 1 (by norm_num)⟩

/-- C1 amended: for every `OdlyzkoConfig` with `T_start < T_end`,
`precision > 0`, `delta_T/delta ≥ 1` and `T_mid ≥ 8π`, the derived fields
satisfy: `T_mid` is exactly the interval midpoint, `delta = grid_factor/√T_mid`,
`R` is a power of two with `R ≥ delta_T/delta`, and
`k1 = ⌊√(T_mid/2π)⌋ ≥ k0`. -/
theorem odlyzko_config_invariants (c : OdlyzkoConfig)
    (h1 : c.T_start < c.T_end) (h2 : 0 < c.precision)
    (h3 : 1 ≤ c.delta_T / c.delta) (h4 : 8 * Real.pi ≤ c.T_mid) :
    c.T_mid = (c.T_start + c.T_end) / 2 ∧
    c.delta = c.grid_factor / Real.sqrt c.T_mid ∧
    (∃ m : ℕ, c.R = 2 ^ m) ∧
    c.delta_T / c.delta ≤ (c.R : ℝ) ∧
    c.k1 = ⌊Real.sqrt (c.T_mid / (2 * Real.pi))⌋ ∧
    c.k0 ≤ c.k1 := by
  have hx0 : (0:ℝ) < c.delta_T / c.delta := lt_of_lt_of_le one_pos h3
  have hceil : (0:ℤ) ≤ ⌈Real.logb 2 (c.delta_T / c.delta)⌉ :=
    Int.ceil_nonneg (Real.logb_nonneg (by norm_num) h3)
  obtain ⟨m, hm⟩ : ∃ m : ℕ, ⌈Real.logb 2 (c.delta_T / c.delta)⌉ = (m : ℤ) :=
    ⟨_, (Int.toNat_of_nonneg hceil).symm⟩
  have hR : c.R = 2 ^ m := by
    unfold OdlyzkoConfig.R
    rw [hm, zpow_natCast, show ((2:ℝ) ^ m) = (((2 ^ m : ℤ)) : ℝ) by push_cast; ring]
    exact Int.floor_intCast _
  have hbound : c.delta_T / c.delta ≤ (c.R : ℝ) := by
    rw [hR]
    push_cast
    calc c.delta_T / c.delta
        = (2:ℝ) ^ Real.logb 2 (c.delta_T / c.delta) :=
          (Real.rpow_logb (by norm_num) (by norm_num) hx0).symm
      _ ≤ (2:ℝ) ^ ((⌈Real.logb 2 (c.delta_T / c.delta)⌉ : ℤ) : ℝ) :=
          (Real.rpow_le_rpow_left_iff (by norm_num)).mpr (Int.le_ceil _)
      _ = (2:ℝ) ^ ((m : ℕ) : ℝ) := by rw [hm]; norm_num
      _ = (2:ℝ) ^ m := Real.rpow_natCast 2 m
  have hk1 : c.k0 ≤ c.k1 := by
    show (2:ℤ) ≤ ⌊Real.sqrt (c.T_mid / (2 * Real.pi))⌋
    rw [Int.le_floor]
    have hpi := Real.pi_pos
    have h4' : (4:ℝ) ≤ c.T_mid / (2 * Real.pi) := by
      rw [le_div_iff₀ (by positivity)]
      linarith
    have : ((2:ℤ):ℝ) = 2 := by norm_num
    rw [this]
    exact (Real.le_sqrt (by norm_num) (by linarith)).mpr (by nlinarith)
  exact ⟨rfl, rfl, ⟨m, hR⟩, hbound, rfl, hk1⟩

/-- Witness for the C1 amended theorem at `T_start = 10`, `T_end = 60`. -/
theorem odlyzko_config_invariants_witness :
    (cfgBig.T_start < cfgBig.T_end ∧ 0 < cfgBig.precision ∧
      1 ≤ cfgBig.delta_T / cfgBig.delta ∧ 8 * Real.pi ≤ cfgBig.T_mid) ∧
    (cfgBig.T_mid = (cfgBig.T_start + cfgBig.T_end) / 2 ∧
    cfgBig.delta = cfgBig.grid_factor / Real.sqrt cfgBig.T_mid ∧
    (∃ m : ℕ, cfgBig.R = 2 ^ m) ∧
    cfgBig.delta_T / cfgBig.delta ≤ (cfgBig.R : ℝ) ∧
    cfgBig.k1 = ⌊Real.sqrt (cfgBig.T_mid / (2 * Real.pi))⌋ ∧
    cfgBig.k0 ≤ cfgBig.k1) := by
  have hTmid : cfgBig.T_mid = 35 := by
    show ((10:ℝ) + 60) / 2 = 35
    norm_num
  have h1 : cfgBig.T_start < cfgBig.T_end := by
    show (10:ℝ) < 60
    norm_num
  have h2 : (0:ℤ) < cfgBig.precision := by
    show (0:ℤ) < 50
    norm_num
  have h3 : 1 ≤ cfgBig.delta_T / cfgBig.delta := by
    have hδT : cfgBig.delta_T = 50 := by
      show (60:ℝ) - 10 = 50
      norm_num
    have hδ : cfgBig.delta = 1 / Real.sqrt 35 := by
      rw [OdlyzkoConfig.delta, hTmid]
      rfl
    rw [hδT, hδ, one_div, div_inv_eq_mul]
    have h35 : (1:ℝ) ≤ Real.sqrt 35 := Real.one_le_sqrt.mpr (by norm_num)
    nlinarith
  have h4 : 8 * Real.pi ≤ cfgBig.T_mid := by
    rw [hTmid]
    have := Real.pi_lt_315
    linarith
  exact ⟨⟨h1, h2, h3, h4⟩, odlyzko_config_invariants cfgBig h1 h2 h3 h4⟩

/-- C1 counterexample: the configuration built from `T_start = 1`,
`T_end = 1.2` (valid inputs: `T_start < T_end`, `precision > 0`) violates the
claimed invariants: `k1 = 0 < 2 = k0`, and `R = 0` is not a power of two and
is smaller than `delta_T/delta`. -/
theorem odlyzko_config_counterexample :
    cfgSmall.T_start < cfgSmall.T_end ∧ 0 < cfgSmall.precision ∧
    cfgSmall.k1 < cfgSmall.k0 ∧
    (¬ ∃ m : ℕ, cfgSmall.R = 2 ^ m) ∧
    (cfgSmall.R : ℝ) < cfgSmall.delta_T / cfgSmall.delta := by
  have hTmid : cfgSmall.T_mid = 1.1 := by
    show ((1:ℝ) + 1.2) / 2 = 1.1
    norm_num
  have hδT : cfgSmall.delta_T = 0.2 := by
    show (1.2:ℝ) - 1 = 0.2
    norm_num
  have hsq_pos : (0:ℝ) < Real.sqrt 1.1 := Real.sqrt_pos.mpr (by norm_num)
  have hsq_lo : (1:ℝ) ≤ Real.sqrt 1.1 := Real.one_le_sqrt.mpr (by norm_num)
  have hsq_hi : Real.sqrt 1.1 ≤ 5/4 := by
    rw [show (5/4:ℝ) = Real.sqrt ((5/4)^2) from (Real.sqrt_sq (by norm_num)).symm]
    exact Real.sqrt_le_sqrt (by norm_num)
  have hδ : cfgSmall.delta = 1 / Real.sqrt 1.1 := by
    rw [OdlyzkoConfig.delta, hTmid]
    rfl
  have hratio : cfgSmall.delta_T / cfgSmall.delta = 0.2 * Real.sqrt 1.1 := by
    rw [hδT, hδ, one_div, div_inv_eq_mul]
  have hx0 : (0:ℝ) < cfgSmall.delta_T / cfgSmall.delta := by
    rw [hratio]; positivity
  have hceil : ⌈Real.logb 2 (cfgSmall.delta_T / cfgSmall.delta)⌉ = -2 := by
    rw [Int.ceil_eq_iff]
    constructor
    · rw [show ((-2:ℤ):ℝ) - 1 = (-3:ℝ) by norm_num]
      rw [Real.lt_logb_iff_rpow_lt (by norm_num) hx0]
      rw [show ((2:ℝ) ^ (-3:ℝ)) = 1/8 by
        rw [show (-3:ℝ) = ((-3:ℤ):ℝ) by norm_num, Real.rpow_intCast]; norm_num]
      rw [hratio]
      nlinarith
    · rw [show ((-2:ℤ):ℝ) = (-2:ℝ) by norm_num]
      rw [Real.logb_le_iff_le_rpow (by norm_num) hx0]
      rw [show ((2:ℝ) ^ (-2:ℝ)) = 1/4 by
        rw [show (-2:ℝ) = ((-2:ℤ):ℝ) by norm_num, Real.rpow_intCast]; norm_num]
      rw [hratio]
      nlinarith
  have hR : cfgSmall.R = 0 := by
    unfold OdlyzkoConfig.R
    rw [hceil]
    rw [show ((2:ℝ) ^ (-2:ℤ)) = 1/4 by norm_num]
    rw [Int.floor_eq_zero_iff]
    constructor <;> norm_num
  have hk1 : cfgSmall.k1 = 0 := by
    unfold OdlyzkoConfig.k1
    rw [hTmid, Int.floor_eq_zero_iff]
    refine ⟨Real.sqrt_nonneg _, ?_⟩
    rw [Real.sqrt_lt' one_pos, one_pow]
    have := Real.pi_gt_three
    rw [div_lt_one (by linarith)]
    linarith
  refine ⟨by norm_num [cfgSmall], by norm_num [cfgSmall], ?_, ?_, ?_⟩
  · rw [hk1]; norm_num [OdlyzkoConfig.k0]
  · rintro ⟨m, hmm⟩
    rw [hR] at hmm
    exact absurd hmm.symm (pow_ne_zero m (by norm_num))
  · rw [hR, hratio]
    push_cast
    nlinarith

lemma siegeltheta_im_form (t : ℝ) : OdlyzkoSchoenhage.siegeltheta t =
    (Complex.log (Complex.Gamma ((1 / 4 : ℂ) + ((t / 2 : ℝ) : ℂ) * Complex.I))).im
      - t * Real.log Real.pi / 2 := by
  unfold OdlyzkoSchoenhage.siegeltheta
  simp only [Complex.conj_im]
  ring

lemma tendsto_siegeltheta :
    Filter.Tendsto OdlyzkoSchoenhage.siegeltheta (nhdsWithin 0 (Set.Ioi 0)) (nhds 0) := by
  have hpath : ContinuousAt (fun t : ℝ => (1 / 4 : ℂ) + ((t / 2 : ℝ) : ℂ) * Complex.I) 0 := by
    fun_prop
  have harg0 : (1 / 4 : ℂ) + (((0 : ℝ) / 2 : ℝ) : ℂ) * Complex.I = (1 / 4 : ℂ) := by
    norm_num
  have hGval : Complex.Gamma ((1 / 4 : ℂ)) = ((Real.Gamma (1 / 4) : ℝ) : ℂ) := by
    rw [show ((1 / 4 : ℂ)) = (((1 / 4 : ℝ)) : ℂ) by norm_num]
    exact Complex.Gamma_ofReal (1 / 4)
  have hG : ContinuousAt Complex.Gamma ((1 / 4 : ℂ) + (((0 : ℝ) / 2 : ℝ) : ℂ) * Complex.I) := by
    rw [harg0]
    refine (Complex.differentiableAt_Gamma _ ?_).continuousAt
    intro m h
    have := congrArg Complex.re h
    simp at this
    nlinarith [Nat.cast_nonneg (α := ℝ) m]
  have hGc0 : ContinuousAt (Complex.Gamma ∘ fun t : ℝ =>
      (1 / 4 : ℂ) + ((t / 2 : ℝ) : ℂ) * Complex.I) 0 := ContinuousAt.comp hG hpath
  have hGc : ContinuousAt (fun t : ℝ =>
      Complex.Gamma ((1 / 4 : ℂ) + ((t / 2 : ℝ) : ℂ) * Complex.I)) 0 := hGc0
  have hlogc : ContinuousAt (fun t : ℝ =>
      Complex.log (Complex.Gamma ((1 / 4 : ℂ) + ((t / 2 : ℝ) : ℂ) * Complex.I))) 0 := by
    refine ContinuousAt.clog hGc ?_
    rw [harg0, hGval]
    exact Complex.ofReal_mem_slitPlane.mpr (Real.Gamma_pos_of_pos (by norm_num))
  have himc : ContinuousAt (fun t : ℝ =>
      (Complex.log (Complex.Gamma ((1 / 4 : ℂ) + ((t / 2 : ℝ) : ℂ) * Complex.I))).im) 0 :=
    Complex.continuous_im.continuousAt.comp hlogc
  have hc : ContinuousAt (fun t : ℝ =>
      (Complex.log (Complex.Gamma ((1 / 4 : ℂ) + ((t / 2 : ℝ) : ℂ) * Complex.I))).im
        - t * Real.log Real.pi / 2) 0 :=
    ContinuousAt.sub himc (by fun_prop)
  have hv : ((Complex.log (Complex.Gamma ((1 / 4 : ℂ) +
      (((0 : ℝ) / 2 : ℝ) : ℂ) * Complex.I))).im - (0 : ℝ) * Real.log Real.pi / 2) = 0 := by
    rw [harg0, hGval, ← Complex.ofReal_log (Real.Gamma_pos_of_pos (by norm_num : (0:ℝ) < 1/4)).le]
    simp
  have htendsto := hc.tendsto
  rw [hv] at htendsto
  have hmono : Filter.Tendsto (fun t : ℝ =>
      (Complex.log (Complex.Gamma ((1 / 4 : ℂ) + ((t / 2 : ℝ) : ℂ) * Complex.I))).im
        - t * Real.log Real.pi / 2) (nhdsWithin 0 (Set.Ioi 0)) (nhds 0) :=
    htendsto.mono_left nhdsWithin_le_nhds
  refine hmono.congr ?_
  intro t
  exact (siegeltheta_im_form t).symm

lemma tendsto_rs_theta :
    Filter.Tendsto rs_theta (nhdsWithin 0 (Set.Ioi 0)) (nhds (-(Real.pi / 8))) := by
  have h1 : Filter.Tendsto (fun t : ℝ => Real.log t * t) (nhdsWithin 0 (Set.Ioi 0)) (nhds 0) := by
    have := tendsto_log_mul_rpow_nhds_zero one_pos
    simpa [Real.rpow_one] using this
  have h2 : Filter.Tendsto (fun t : ℝ => t) (nhdsWithin 0 (Set.Ioi 0)) (nhds 0) :=
    Filter.tendsto_id.mono_left nhdsWithin_le_nhds
  have key := (((h1.div_const 2).sub
      ((h2.mul_const (Real.log (2 * Real.pi))).div_const 2)).sub (h2.div_const 2)).sub_const
        (Real.pi / 8)
  have hval : ((0:ℝ) / 2 - 0 * Real.log (2 * Real.pi) / 2 - 0 / 2 - Real.pi / 8) =
      -(Real.pi / 8) := by norm_num
  rw [hval] at key
  refine key.congr' ?_
  filter_upwards [self_mem_nhdsWithin] with t ht
  have ht' : (0:ℝ) < t := ht
  rw [rs_theta, Real.log_div (ne_of_gt ht') (by positivity)]
  ring

lemma siegeltheta_ne_rs_theta :
    ∃ t : ℝ, 0 < t ∧ OdlyzkoSchoenhage.siegeltheta t ≠ rs_theta t := by
  by_contra hcon
  push_neg at hcon
  have heq : OdlyzkoSchoenhage.siegeltheta =ᶠ[nhdsWithin (0:ℝ) (Set.Ioi 0)] rs_theta := by
    filter_upwards [self_mem_nhdsWithin] with t ht
    exact hcon t ht
  have h0 : Filter.Tendsto rs_theta (nhdsWithin (0:ℝ) (Set.Ioi 0)) (nhds 0) :=
    Filter.Tendsto.congr' heq tendsto_siegeltheta
  have hu := tendsto_nhds_unique h0 tendsto_rs_theta
  have hpi := Real.pi_pos
  linarith

/-- C3 counterexample: the Fast Multi-Evaluation Engine's `siegeltheta`
(computed via `loggamma`, the exact Riemann-Siegel theta) is not the same
function as the §4.1 phase formula `(t/2)·ln(t/2π) − t/2 − π/8` used inside
`riemann_siegel_z`: along `t → 0⁺` the former tends to 0 and the latter to
`−π/8`, so they cannot agree at every `t > 0`. -/
theorem siegeltheta_not_rs_theta :
    ¬ ∀ t : ℝ, 0 < t → OdlyzkoSchoenhage.siegeltheta t = rs_theta t := by
  intro h
  obtain ⟨t, ht, hne⟩ := siegeltheta_ne_rs_theta
  exact hne (h t ht)

/-- C3 amended: `riemann_siegel_z` uses the §4.1 phase formula `rs_theta`,
while the engine's `siegeltheta` computes the exact theta via `loggamma`;
the two are distinct functions — they differ at some `t > 0` (they agree
only asymptotically). -/
theorem siegeltheta_differs_from_rs_theta :
    (∀ t : ℝ, riemann_siegel_z t =
      (zeta_riemann_siegel t none * Complex.exp ((-(rs_theta t) : ℝ) * Complex.I)).re) ∧
    ∃ t : ℝ, 0 < t ∧ OdlyzkoSchoenhage.siegeltheta t ≠ rs_theta t :=
  ⟨fun _ => rfl, siegeltheta_ne_rs_theta⟩

/-- C9: for every configuration (regardless of all constructor inputs) the
lower summation bound `k0` is the constant 2, and the partial-sum kernel
`core_sum_F` sums over `Icc 2 k1`, a range that never contains `k = 1`: the
`k = 1` term of the Riemann-Siegel main sum is always omitted. -/
theorem core_sum_F_omits_first_term (c : OdlyzkoConfig) (t : ℝ) :
    c.k0 = 2 ∧
    OdlyzkoSchoenhage.core_sum_F c t =
      ∑ k in Finset.Icc (2 : ℤ) c.k1,
        (1 / ((Real.sqrt (k : ℝ) : ℝ) : ℂ)) *
          Complex.exp (-Complex.I * (t : ℂ) * ((Real.log (k : ℝ) : ℝ) : ℂ)) ∧
    (1 : ℤ) ∉ Finset.Icc c.k0 c.k1 := by
  refine ⟨rfl, rfl, ?_⟩
  simp only [OdlyzkoConfig.k0, Finset.mem_Icc, not_and]
  omega

/-- C4: with `terms = None` the evaluator returns exactly
`e^{iθ(t)} · Σ_{n=1}^{⌊√(t/2π)⌋} n^{-1/2-it}` with `θ` the §4.1 phase formula
and no correction term added, while any explicit `terms` value makes it
return exactly the arbitrary-precision reference evaluator's value at
`s = 1/2 + it`. -/
theorem zeta_riemann_siegel_paths (t : ℝ) (ht : 0 < t) :
    zeta_riemann_siegel t none =
      Complex.exp (((t / 2 * Real.log (t / (2 * Real.pi)) - t / 2 - Real.pi / 8 : ℝ) : ℂ) *
          Complex.I) *
        ∑ n in Finset.Icc (1 : ℤ) ⌊Real.sqrt (t / (2 * Real.pi))⌋,
          (n : ℂ) ^ (-(1 / 2 + (t : ℂ) * Complex.I)) ∧
    ∀ k : ℤ, zeta_riemann_siegel t (some k) =
      riemannZeta (1 / 2 + (t : ℂ) * Complex.I) := by
  constructor
  · simp [zeta_riemann_siegel, rs_theta]
  · intro k
    rfl

/-- Witness for C4 at `t = 1`. -/
theorem zeta_riemann_siegel_paths_witness :
    (0 : ℝ) < 1 ∧
    (zeta_riemann_siegel 1 none =
      Complex.exp ((((1 : ℝ) / 2 * Real.log ((1 : ℝ) / (2 * Real.pi)) - (1 : ℝ) / 2 -
            Real.pi / 8 : ℝ) : ℂ) * Complex.I) *
        ∑ n in Finset.Icc (1 : ℤ) ⌊Real.sqrt ((1 : ℝ) / (2 * Real.pi))⌋,
          (n : ℂ) ^ (-(1 / 2 + ((1 : ℝ) : ℂ) * Complex.I)) ∧
    ∀ k : ℤ, zeta_riemann_siegel 1 (some k) =
      riemannZeta (1 / 2 + ((1 : ℝ) : ℂ) * Complex.I)) :=
  ⟨by norm_num, zeta_riemann_siegel_paths 1 (by norm_num)⟩

/-- C2 counterexample: calling `precompute_grid` a second time on an engine
that is already precomputed is not a no-op — the method body (the grid
computation) executes again, as the instrumentation counter records; the
resulting state differs from the once-precomputed state. -/
theorem precompute_grid_not_noop :
    (OdlyzkoSchoenhage.precompute_grid ⟨10, 20, 50, 1, 10⟩ OdlyzkoSchoenhage.init).precomputed
        = true ∧
    OdlyzkoSchoenhage.precompute_grid ⟨10, 20, 50, 1, 10⟩
        (OdlyzkoSchoenhage.precompute_grid ⟨10, 20, 50, 1, 10⟩ OdlyzkoSchoenhage.init) ≠
      OdlyzkoSchoenhage.precompute_grid ⟨10, 20, 50, 1, 10⟩ OdlyzkoSchoenhage.init := by
  refine ⟨rfl, fun h => ?_⟩
  have h2 := congrArg EngineState.recompute_count h
  simp [OdlyzkoSchoenhage.precompute_grid, OdlyzkoSchoenhage.init] at h2

/-- C2 amended: `precompute_grid` has no idempotence guard, so a second call
re-executes the grid computation (the counter increments); but the
computation is deterministic, so the stored grid values and the flag are
unchanged.  The guarded no-op lives in `fft_interpolation`, which leaves a
precomputed state untouched and does not recompute. -/
theorem precompute_grid_second_call (c : OdlyzkoConfig) (s : EngineState) (t : ℝ)
    (h : s.precomputed = true) :
    (OdlyzkoSchoenhage.precompute_grid c (OdlyzkoSchoenhage.precompute_grid c s)).grid_values =
      (OdlyzkoSchoenhage.precompute_grid c s).grid_values ∧
    (OdlyzkoSchoenhage.precompute_grid c (OdlyzkoSchoenhage.precompute_grid c s)).precomputed =
      (OdlyzkoSchoenhage.precompute_grid c s).precomputed ∧
    (OdlyzkoSchoenhage.precompute_grid c
        (OdlyzkoSchoenhage.precompute_grid c s)).recompute_count =
      (OdlyzkoSchoenhage.precompute_grid c s).recompute_count + 1 ∧
    OdlyzkoSchoenhage.fft_interpolation c s t =
      (s, OdlyzkoSchoenhage.interp_value c s.grid_values t) := by
  refine ⟨rfl, rfl, rfl, ?_⟩
  simp [OdlyzkoSchoenhage.fft_interpolation, h]

/-- Witness for the C2 amended theorem on a concrete precomputed state. -/
theorem precompute_grid_second_call_witness :
    (⟨[], true, 0⟩ : EngineState).precomputed = true ∧
    OdlyzkoSchoenhage.fft_interpolation ⟨10, 20, 50, 1, 10⟩ ⟨[], true, 0⟩ 0 =
      ((⟨[], true, 0⟩ : EngineState),
        OdlyzkoSchoenhage.interp_value ⟨10, 20, 50, 1, 10⟩ [] 0) :=
  ⟨rfl, (precompute_grid_second_call ⟨10, 20, 50, 1, 10⟩ ⟨[], true, 0⟩ 0 rfl).2.2.2⟩

/-- C5: `find_zeros_in_range` never returns an empty list, and whenever the
sign-change scan detects no bracket (the pre-fallback list is empty) it
returns exactly the single-element list holding the reference evaluator's
first zero height. -/
theorem find_zeros_in_range_fallback (c : OdlyzkoConfig) (step0 : Option ℝ) :
    OdlyzkoSchoenhage.find_zeros_in_range c step0 ≠ [] ∧
    (OdlyzkoSchoenhage.raw_zeros c (effStep c step0) = [] →
      OdlyzkoSchoenhage.find_zeros_in_range c step0 = [zetazero1_im]) := by
  unfold OdlyzkoSchoenhage.find_zeros_in_range
  constructor
  · split_ifs with h
    · simp
    · exact h
  · intro h
    simp [h]

/-- The scan loop, written as a `filterMap` over the sample indices. -/
lemma rsScan_eq_filterMap (Z : ℝ → ℝ) (step : ℝ) (p : ℝ) (n : ℕ) :
    rsScan Z step p n =
      (List.range n).filterMap fun i : ℕ => rsCross Z step (p + (i : ℝ) * step) := by
  induction n generalizing p with
  | zero => simp [rsScan]
  | succ n ih =>
    have hfun : (fun i : ℕ => rsCross Z step (p + step + (i : ℝ) * step)) =
        (fun i : ℕ => rsCross Z step (p + (i : ℝ) * step)) ∘ Nat.succ := by
      funext i
      simp only [Function.comp_apply]
      congr 1
      push_cast
      ring
    rw [rsScan, ih (p + step), hfun, ← List.filterMap_map,
      List.range_succ_eq_map, List.filterMap_cons]
    have h0 : p + ((0 : ℕ) : ℝ) * step = p := by push_cast; ring
    by_cases h : Z p * Z (p + step) < 0
    · simp [rsCross, h0, h]
    · simp [rsCross, h0, h]

/-- A `filterMap` over `range n` whose produced values increase with the
index is sorted. -/
lemma sorted_filterMap (f : ℕ → Option ℝ) (n : ℕ)
    (hf : ∀ i j x y, i < j → f i = some x → f j = some y → x < y) :
    ((List.range n).filterMap f).Sorted (· < ·) := by
  rw [List.Sorted, List.pairwise_filterMap]
  refine (List.pairwise_lt_range n).imp ?_
  intro a b hab x hx y hy
  exact hf a b x y hab (Option.mem_def.mp hx) (Option.mem_def.mp hy)

/-- C7: `find_zeros_riemann_siegel` returns exactly the list of midpoints
`(t_i + (t_i + step))/2` over the consecutive sample pairs whose `Z`-values
have strictly negative product (a sample where `Z` is exactly zero makes the
adjacent products zero, hence contributes no entry), and the list is
ascending. -/
theorem find_zeros_rs_midpoints (t_start t_end step : ℝ) (h1 : t_start < t_end)
    (h2 : 0 < step) :
    find_zeros_riemann_siegel t_start t_end step =
      (List.range (⌊(t_end - t_start) / step⌋).toNat).filterMap (fun i : ℕ =>
        if riemann_siegel_z (t_start + (i : ℝ) * step) *
            riemann_siegel_z (t_start + ((i : ℝ) + 1) * step) < 0
        then some ((t_start + (i : ℝ) * step + (t_start + ((i : ℝ) + 1) * step)) / 2)
        else none) ∧
    (find_zeros_riemann_siegel t_start t_end step).Sorted (· < ·) := by
  have hcross : (fun i : ℕ => rsCross riemann_siegel_z step (t_start + (i : ℝ) * step)) =
      fun i : ℕ =>
        if riemann_siegel_z (t_start + (i : ℝ) * step) *
            riemann_siegel_z (t_start + ((i : ℝ) + 1) * step) < 0
        then some ((t_start + (i : ℝ) * step + (t_start + ((i : ℝ) + 1) * step)) / 2)
        else none := by
    funext i
    unfold rsCross
    rw [show t_start + (i : ℝ) * step + step = t_start + ((i : ℝ) + 1) * step by ring]
  have heq : find_zeros_riemann_siegel t_start t_end step =
      (List.range (⌊(t_end - t_start) / step⌋).toNat).filterMap (fun i : ℕ =>
        if riemann_siegel_z (t_start + (i : ℝ) * step) *
            riemann_siegel_z (t_start + ((i : ℝ) + 1) * step) < 0
        then some ((t_start + (i : ℝ) * step + (t_start + ((i : ℝ) + 1) * step)) / 2)
        else none) := by
    rw [find_zeros_riemann_siegel, rsScan_eq_filterMap, hcross]
  refine ⟨heq, ?_⟩
  rw [heq]
  apply sorted_filterMap
  intro i j x y hij hx hy
  rw [Option.ite_none_right_eq_some, Option.some.injEq] at hx hy
  obtain ⟨-, hx⟩ := hx
  obtain ⟨-, hy⟩ := hy
  subst hx hy
  have hij' : (i : ℝ) + 1 ≤ (j : ℝ) := by exact_mod_cast hij
  nlinarith

/-- Witness for C7 on the interval `[0, 1]` with step 1. -/
theorem find_zeros_rs_midpoints_witness :
    ((0 : ℝ) < 1 ∧ (0 : ℝ) < 1) ∧
    (find_zeros_riemann_siegel 0 1 1 =
      (List.range (⌊((1 : ℝ) - 0) / 1⌋).toNat).filterMap (fun i : ℕ =>
        if riemann_siegel_z (0 + (i : ℝ) * 1) * riemann_siegel_z (0 + ((i : ℝ) + 1) * 1) < 0
        then some ((0 + (i : ℝ) * 1 + (0 + ((i : ℝ) + 1) * 1)) / 2)
        else none) ∧
    (find_zeros_riemann_siegel 0 1 1).Sorted (· < ·)) :=
  ⟨⟨by norm_num, by norm_num⟩, find_zeros_rs_midpoints 0 1 1 (by norm_num) (by norm_num)⟩

/-- Witness for C5 on a degenerate interval whose scan is empty. -/
theorem find_zeros_in_range_fallback_witness :
    OdlyzkoSchoenhage.raw_zeros ⟨20, 10, 50, 1, 10⟩
        (effStep ⟨20, 10, 50, 1, 10⟩ (some 1)) = [] ∧
    OdlyzkoSchoenhage.find_zeros_in_range ⟨20, 10, 50, 1, 10⟩ (some 1) = [zetazero1_im] := by
  have hstep : effStep (⟨20, 10, 50, 1, 10⟩ : OdlyzkoConfig) (some 1) = 1 := by
    simp [effStep]
  have hlen : arangeLen (20 : ℝ) (10 + 1) 1 = 0 := by
    unfold arangeLen
    rw [show ((10 : ℝ) + 1 - 20) / 1 = ((-9 : ℤ) : ℝ) by norm_num, Int.ceil_intCast]
    rfl
  have hempty : OdlyzkoSchoenhage.raw_zeros ⟨20, 10, 50, 1, 10⟩ 1 = [] := by
    unfold OdlyzkoSchoenhage.raw_zeros
    rw [show ((⟨20, 10, 50, 1, 10⟩ : OdlyzkoConfig).T_start) = (20 : ℝ) from rfl]
    rw [show ((⟨20, 10, 50, 1, 10⟩ : OdlyzkoConfig).T_end) = (10 : ℝ) from rfl]
    rw [hlen]
    rfl
  have hempty2 : OdlyzkoSchoenhage.raw_zeros ⟨20, 10, 50, 1, 10⟩
      (effStep ⟨20, 10, 50, 1, 10⟩ (some 1)) = [] := by
    rw [hstep]
    exact hempty
  exact ⟨hempty2, (find_zeros_in_range_fallback ⟨20, 10, 50, 1, 10⟩ (some 1)).2 hempty2⟩

/-- C8 amended: with `δ ≠ 0`, the interpolator extrapolates linearly from the
two nearest boundary samples exactly when the grid position `x = (t-t0)/δ`
satisfies `x < 0` or `x ≥ n` (never failing there), for a size-0 signal it
returns 0 for every `t`, and for a size-1 signal it returns the single sample
for every out-of-range `t`.  (For `t` in the gap `(t0+(n-1)δ, t0+nδ)` — i.e.
`n-1 < x < n` — the code takes the FFT branch instead, and an in-range query
on a size-1 signal is not the single sample: see the counterexample.) -/
theorem interpolate_edge_policy (g : List ℂ) (δ t0 t : ℝ) (hδ : δ ≠ 0) :
    (2 ≤ g.length → (t - t0) / δ < 0 →
      FFTInterpolator.interpolate g δ t0 t =
        some (g.getD 0 0 + (g.getD 1 0 - g.getD 0 0) / (δ : ℂ) * ((t - t0 : ℝ) : ℂ))) ∧
    (2 ≤ g.length → (g.length : ℝ) ≤ (t - t0) / δ →
      FFTInterpolator.interpolate g δ t0 t =
        some (g.getD (g.length - 1) 0 +
          (g.getD (g.length - 1) 0 - g.getD (g.length - 2) 0) / (δ : ℂ) *
            ((t - (t0 + (g.length - 1) * δ) : ℝ) : ℂ))) ∧
    (g.length = 0 → FFTInterpolator.interpolate g δ t0 t = some 0) ∧
    (g.length = 1 → ((t - t0) / δ < 0 ∨ (1 : ℝ) ≤ (t - t0) / δ) →
      FFTInterpolator.interpolate g δ t0 t = some (g.getD 0 0)) := by
  unfold FFTInterpolator.interpolate
  rw [if_pos hδ]
  refine ⟨?_, ?_, ?_, ?_⟩
  · intro h2 hx
    rw [if_neg (by omega : ¬ g.length = 0), if_pos (Or.inl hx), if_pos ⟨hx, by omega⟩]
  · intro h2 hx
    have hnot : ¬ (t - t0) / δ < 0 := by
      push_neg
      have : (0:ℝ) ≤ (g.length : ℝ) := by positivity
      linarith
    rw [if_neg (by omega : ¬ g.length = 0), if_pos (Or.inr hx),
      if_neg (by exact fun hc => hnot hc.1), if_pos (by omega : 1 < g.length)]
  · intro h0
    rw [if_pos h0]
  · intro h1 hx
    rcases hx with hx | hx
    · rw [if_neg (by omega : ¬ g.length = 0), if_pos (Or.inl hx),
        if_neg (by rintro ⟨-, hc⟩; omega), if_neg (by omega : ¬ 1 < g.length)]
    · rw [if_neg (by omega : ¬ g.length = 0), if_pos (Or.inr (by rw [h1]; exact_mod_cast hx)),
        if_neg (by rintro ⟨hc, -⟩; linarith), if_neg (by omega : ¬ 1 < g.length)]

lemma pyRound_three : pyRound 3 = 3 := by
  unfold pyRound
  rw [if_neg (by norm_num [Int.fract])]
  norm_num

lemma pyRound_zero : pyRound 0 = 0 := by
  unfold pyRound
  rw [if_neg (by norm_num [Int.fract])]
  norm_num

lemma cexp_dft_one : Complex.exp (-(2 * (Real.pi : ℂ) * Complex.I) * (1:ℕ) * (1:ℕ) / (2:ℕ)) = -1 := by
  rw [show (-(2 * (Real.pi : ℂ) * Complex.I) * (1:ℕ) * (1:ℕ) / (2:ℕ)) =
      -((Real.pi : ℂ) * Complex.I) by push_cast; ring]
  rw [Complex.exp_neg, Complex.exp_pi_mul_I]
  norm_num

lemma cexp_nine_half : Complex.exp (2 * (Real.pi : ℂ) * Complex.I * 3 * 3 / 4) = Complex.I := by
  rw [show (2 * (Real.pi : ℂ) * Complex.I * 3 * 3 / 4) =
      ((Real.pi / 2 : ℝ) : ℂ) * Complex.I + ((2:ℤ) : ℂ) * (2 * (Real.pi : ℂ) * Complex.I) by
        push_cast; ring]
  rw [Complex.exp_add, Complex.exp_int_mul_two_pi_mul_I, Complex.exp_mul_I]
  rw [← Complex.ofReal_cos, ← Complex.ofReal_sin, Real.cos_pi_div_two, Real.sin_pi_div_two]
  norm_num

lemma dft01_zero : dft [0, 1] 0 = 1 := by
  unfold dft
  simp [Finset.sum_range_succ]

lemma dft01_one : dft [0, 1] 1 = -1 := by
  unfold dft
  rw [show ([0, 1] : List ℂ).length = 2 from rfl]
  rw [Finset.sum_range_succ, Finset.sum_range_succ, Finset.sum_range_zero]
  rw [show (([0, 1] : List ℂ).getD 1 0) = 1 from rfl,
    show (([0, 1] : List ℂ).getD 0 0) = 0 from rfl]
  rw [cexp_dft_one]
  ring

lemma interp_cex_gap_eval :
    FFTInterpolator.interpolate [0, 1] 1 0 (3/2) = some ((1 - Complex.I)/2) := by
  unfold FFTInterpolator.interpolate
  rw [if_pos (by norm_num : (1:ℝ) ≠ 0)]
  rw [if_neg (by norm_num : ¬ ([0, 1] : List ℂ).length = 0)]
  rw [if_neg ?houtside]
  case houtside =>
    push_neg
    constructor <;> norm_num
  have hspec : specAssemble [0, 1] = some (fun k =>
      if k < 1 then dft [0, 1] k else if 3 ≤ k then dft [0, 1] (k - 2) else 0) := rfl
  rw [hspec]
  rw [show ((3:ℝ)/2 - 0)/1 * 2 = 3 by norm_num, pyRound_three]
  show (if (0:ℤ) ≤ 3 ∧ (3:ℤ) < 2 * ([0, 1] : List ℂ).length
    then some (ifft2 (2 * ([0, 1] : List ℂ).length) (fun k =>
      if k < 1 then dft [0, 1] k else if 3 ≤ k then dft [0, 1] (k - 2) else 0) ((3:ℤ).toNat))
    else some (([0, 1] : List ℂ).getD (([0, 1] : List ℂ).length - 1) 0)) =
    some ((1 - Complex.I)/2)
  rw [if_pos (by norm_num : (0:ℤ) ≤ 3 ∧ (3:ℤ) < 2 * ([0, 1] : List ℂ).length)]
  have hval : ifft2 (2 * ([0, 1] : List ℂ).length) (fun k =>
      if k < 1 then dft [0, 1] k else if 3 ≤ k then dft [0, 1] (k - 2) else 0)
      ((3:ℤ).toNat) = (1 - Complex.I)/2 := by
    unfold ifft2
    rw [show (2 * ([0, 1] : List ℂ).length) = 4 from rfl, show ((3:ℤ).toNat) = 3 from rfl]
    rw [Finset.sum_range_succ, Finset.sum_range_succ, Finset.sum_range_succ,
      Finset.sum_range_succ, Finset.sum_range_zero]
    norm_num
    rw [dft01_zero, dft01_one, cexp_nine_half]
    ring
  rw [hval]

lemma dft_single : dft [(1:ℂ)] 0 = 1 := by
  unfold dft
  rw [show ([(1:ℂ)] : List ℂ).length = 1 from rfl]
  rw [Finset.sum_range_succ, Finset.sum_range_zero]
  norm_num

lemma interp_cex_single_eval :
    FFTInterpolator.interpolate [1] 1 0 0 = some 2 := by
  unfold FFTInterpolator.interpolate
  rw [if_pos (by norm_num : (1:ℝ) ≠ 0)]
  rw [if_neg (by norm_num : ¬ ([1] : List ℂ).length = 0)]
  rw [if_neg ?hout]
  case hout =>
    push_neg
    constructor <;> norm_num
  have hspec : specAssemble [1] = some (fun _ => dft [1] 0) := rfl
  rw [hspec]
  show (if (0:ℤ) ≤ pyRound (((0:ℝ) - 0)/1 * 2) ∧
      pyRound (((0:ℝ) - 0)/1 * 2) < 2 * ([1] : List ℂ).length
    then some (ifft2 (2 * ([1] : List ℂ).length) (fun _ => dft [1] 0)
      (pyRound (((0:ℝ) - 0)/1 * 2)).toNat)
    else some (([1] : List ℂ).getD (([1] : List ℂ).length - 1) 0)) = some 2
  rw [show ((0:ℝ) - 0)/1 * 2 = 0 by norm_num, pyRound_zero]
  rw [if_pos (by norm_num : (0:ℤ) ≤ 0 ∧ (0:ℤ) < 2 * ([1] : List ℂ).length)]
  have hval : ifft2 (2 * ([1] : List ℂ).length) (fun _ => dft [1] 0) ((0:ℤ).toNat) = 2 := by
    unfold ifft2
    rw [show (2 * ([1] : List ℂ).length) = 2 from rfl, show ((0:ℤ).toNat) = 0 from rfl]
    rw [Finset.sum_range_succ, Finset.sum_range_succ, Finset.sum_range_zero, dft_single]
    norm_num
  rw [hval]

/-- The DFT components of a signal sum to `n` times the first sample. -/
lemma sum_dft (g : List ℂ) :
    ∑ k in Finset.range g.length, dft g k = (g.length : ℂ) * g.getD 0 0 := by
  unfold dft
  rw [Finset.sum_comm]
  have hterm : ∀ j ∈ Finset.range g.length,
      (∑ k in Finset.range g.length,
        g.getD j 0 * Complex.exp (-(2 * (Real.pi : ℂ) * Complex.I) * j * k / g.length)) =
      if j = 0 then (g.length : ℂ) * g.getD 0 0 else 0 := by
    intro j hj
    rcases Nat.eq_zero_or_pos j with hj0 | hjpos
    · subst hj0
      rw [if_pos rfl]
      have : ∀ k ∈ Finset.range g.length,
          g.getD 0 0 * Complex.exp (-(2 * (Real.pi : ℂ) * Complex.I) * (0:ℕ) * k / g.length) =
          g.getD 0 0 := by
        intro k _
        rw [show (-(2 * (Real.pi : ℂ) * Complex.I) * (0:ℕ) * k / g.length) = 0 by
          push_cast; ring]
        rw [Complex.exp_zero, mul_one]
      rw [Finset.sum_congr rfl this, Finset.sum_const, Finset.card_range]
      simp [mul_comm]
    · rw [if_neg (by omega)]
      have hn : j < g.length := Finset.mem_range.mp hj
      have hn0 : (g.length : ℂ) ≠ 0 := by
        exact_mod_cast Nat.cast_ne_zero.mpr (by omega)
      set z : ℂ := Complex.exp (-(2 * (Real.pi : ℂ) * Complex.I) * j / g.length) with hz
      have hzk : ∀ k : ℕ,
          Complex.exp (-(2 * (Real.pi : ℂ) * Complex.I) * j * k / g.length) = z ^ k := by
        intro k
        rw [hz, ← Complex.exp_nat_mul]
        congr 1
        ring
      have hzn : z ^ g.length = 1 := by
        rw [hz, ← Complex.exp_nat_mul]
        rw [show ((g.length : ℂ)) * (-(2 * (Real.pi : ℂ) * Complex.I) * j / g.length) =
            ((-(j:ℤ) : ℤ) : ℂ) * (2 * (Real.pi : ℂ) * Complex.I) by
          push_cast
          field_simp
          ring]
        exact Complex.exp_int_mul_two_pi_mul_I _
      have hz1 : z ≠ 1 := by
        intro hzeq
        rw [hz] at hzeq
        obtain ⟨m, hm⟩ := Complex.exp_eq_one_iff.mp hzeq
        have h2pi : (2 * (Real.pi : ℂ) * Complex.I) ≠ 0 := by
          simp [Complex.ext_iff, Real.pi_ne_zero]
        have hjm : (-(j:ℂ)) = (m : ℂ) * g.length := by
          have hms := hm
          field_simp at hms
          have h3 : (2 * (Real.pi:ℂ) * Complex.I) * (-(j:ℂ)) =
              (2 * (Real.pi:ℂ) * Complex.I) * ((m:ℂ) * g.length) := by
            linear_combination hms
          exact mul_left_cancel₀ h2pi h3
        have hjmz : -(j:ℤ) = m * (g.length:ℤ) := by exact_mod_cast hjm
        have hnz : (j:ℤ) < (g.length:ℤ) := by exact_mod_cast hn
        have hjz : (0:ℤ) < (j:ℤ) := by exact_mod_cast hjpos
        have hlen : (0:ℤ) < (g.length:ℤ) := by linarith
        rcases lt_trichotomy m 0 with hm0 | hm0 | hm0
        · have hmul : m * (g.length:ℤ) ≤ -(g.length:ℤ) := by nlinarith
          linarith
        · rw [hm0] at hjmz
          omega
        · have hmul : (g.length:ℤ) ≤ m * (g.length:ℤ) := by nlinarith
          linarith
      have : (∑ k in Finset.range g.length,
          g.getD j 0 * Complex.exp (-(2 * (Real.pi : ℂ) * Complex.I) * j * k / g.length)) =
          g.getD j 0 * ∑ k in Finset.range g.length, z ^ k := by
        rw [Finset.mul_sum]
        refine Finset.sum_congr rfl ?_
        intro k _
        rw [hzk k]
      rw [this, geom_sum_eq hz1, hzn]
      simp
  rw [Finset.sum_congr rfl hterm]
  rcases Nat.eq_zero_or_pos g.length with h0 | hpos
  · rw [h0]
    simp
  · rw [Finset.sum_ite_eq' (Finset.range g.length) 0 (fun _ => (g.length : ℂ) * g.getD 0 0)]
    rw [if_pos (Finset.mem_range.mpr hpos)]

/-- The assembled spectrum of an even-size signal sums to the sum of all DFT
components (the two half-spectra reassemble to `range n`). -/
lemma sum_freq_even (g : List ℂ) (h2 : 2 ≤ g.length) (he : g.length % 2 = 0) :
    (∑ k in Finset.range (2 * g.length),
      (if k < g.length / 2 then dft g k
        else if 2 * g.length - g.length / 2 ≤ k then dft g (k - g.length)
        else 0)) = ∑ k in Finset.range g.length, dft g k := by
  rw [Finset.range_eq_Ico,
    ← Finset.sum_Ico_consecutive _ (by omega : 0 ≤ g.length / 2)
      (by omega : g.length / 2 ≤ 2 * g.length),
    ← Finset.sum_Ico_consecutive _ (by omega : g.length / 2 ≤ 2 * g.length - g.length / 2)
      (by omega : 2 * g.length - g.length / 2 ≤ 2 * g.length)]
  have hS1 : (∑ k in Finset.Ico 0 (g.length / 2),
      (if k < g.length / 2 then dft g k
        else if 2 * g.length - g.length / 2 ≤ k then dft g (k - g.length) else 0)) =
      ∑ k in Finset.Ico 0 (g.length / 2), dft g k := by
    refine Finset.sum_congr rfl ?_
    intro k hk
    rw [if_pos (Finset.mem_Ico.mp hk).2]
  have hS2 : (∑ k in Finset.Ico (g.length / 2) (2 * g.length - g.length / 2),
      (if k < g.length / 2 then dft g k
        else if 2 * g.length - g.length / 2 ≤ k then dft g (k - g.length) else 0)) = 0 := by
    refine Finset.sum_eq_zero ?_
    intro k hk
    obtain ⟨hk1, hk2⟩ := Finset.mem_Ico.mp hk
    rw [if_neg (by omega), if_neg (by omega)]
  have hS3 : (∑ k in Finset.Ico (2 * g.length - g.length / 2) (2 * g.length),
      (if k < g.length / 2 then dft g k
        else if 2 * g.length - g.length / 2 ≤ k then dft g (k - g.length) else 0)) =
      ∑ k in Finset.Ico (g.length / 2) g.length, dft g k := by
    have hstep : (∑ k in Finset.Ico (2 * g.length - g.length / 2) (2 * g.length),
        (if k < g.length / 2 then dft g k
          else if 2 * g.length - g.length / 2 ≤ k then dft g (k - g.length) else 0)) =
        ∑ k in Finset.Ico (2 * g.length - g.length / 2) (2 * g.length), dft g (k - g.length) := by
      refine Finset.sum_congr rfl ?_
      intro k hk
      obtain ⟨hk1, hk2⟩ := Finset.mem_Ico.mp hk
      rw [if_neg (by omega), if_pos (by omega)]
    rw [hstep, Finset.sum_Ico_eq_sum_range, Finset.sum_Ico_eq_sum_range]
    have hlen : 2 * g.length - (2 * g.length - g.length / 2) = g.length - g.length / 2 := by
      omega
    rw [hlen]
    refine Finset.sum_congr rfl ?_
    intro i hi
    congr 1
    omega
  rw [hS1, hS2, hS3, zero_add]
  exact Finset.sum_Ico_consecutive _ (by omega) (by omega)

/-- The first entry of the doubled inverse DFT is `2/pad` times the plain sum
of the spectrum. -/
lemma ifft2_zero (pad : ℕ) (freq : ℕ → ℂ) :
    ifft2 pad freq 0 = 2 * ((1 : ℂ) / pad) * ∑ k in Finset.range pad, freq k := by
  unfold ifft2
  congr 1
  refine Finset.sum_congr rfl ?_
  intro k _
  rw [show (2 * (Real.pi : ℂ) * Complex.I * k * ((0:ℕ):ℂ) / pad) = 0 by push_cast; ring,
    Complex.exp_zero, mul_one]

/-- The zero-frequency DFT component of a single-sample signal is the sample. -/
lemma dft_zero_of_len_one (g : List ℂ) (h1 : g.length = 1) : dft g 0 = g.getD 0 0 := by
  unfold dft
  rw [h1, Finset.sum_range_one]
  rw [show (-(2 * (Real.pi : ℂ) * Complex.I) * ((0:ℕ):ℂ) * ((0:ℕ):ℂ) / ((1:ℕ):ℂ)) = 0 by
    push_cast; ring]
  rw [Complex.exp_zero, mul_one]

/-- C10 amended: with `delta = 0` the grid position is guarded to `x = 0`
(no division by zero) for every query `t`, and the call returns a value
derived from the first grid sample — `0` for an empty grid, `2·g₀` for a
size-1 grid, `g₀` for an even-size grid — but for an odd grid size `≥ 3` the
spectrum assembly raises a numpy broadcast error instead of returning. -/
theorem interpolate_delta_zero (g : List ℂ) (t0 t : ℝ) :
    (g.length = 0 → FFTInterpolator.interpolate g 0 t0 t = some 0) ∧
    (g.length = 1 → FFTInterpolator.interpolate g 0 t0 t = some (2 * g.getD 0 0)) ∧
    (2 ≤ g.length → g.length % 2 = 0 →
      FFTInterpolator.interpolate g 0 t0 t = some (g.getD 0 0)) ∧
    (3 ≤ g.length → g.length % 2 = 1 → FFTInterpolator.interpolate g 0 t0 t = none) := by
  unfold FFTInterpolator.interpolate
  rw [if_neg (by norm_num : ¬ (0:ℝ) ≠ 0)]
  refine ⟨?_, ?_, ?_, ?_⟩
  · intro h0
    rw [if_pos h0]
  · intro h1
    rw [if_neg (by omega : ¬ g.length = 0), if_neg ?hout1]
    case hout1 =>
      rintro (hc | hc)
      · exact absurd hc (by norm_num)
      · rw [h1] at hc
        norm_num at hc
    have hspec : specAssemble g = some (fun _ => dft g 0) := by
      unfold specAssemble
      rw [if_pos h1]
    rw [hspec]
    show (if (0:ℤ) ≤ pyRound ((0:ℝ) * 2) ∧ pyRound ((0:ℝ) * 2) < (2 * (g.length:ℤ))
      then some (ifft2 (2 * g.length) (fun _ => dft g 0) (pyRound ((0:ℝ) * 2)).toNat)
      else some (g.getD (g.length - 1) 0)) = some (2 * g.getD 0 0)
    rw [show (0:ℝ) * 2 = 0 by norm_num, pyRound_zero]
    rw [if_pos ⟨le_rfl, by rw [h1]; norm_num⟩]
    have hval : ifft2 (2 * g.length) (fun _ => dft g 0) ((0:ℤ).toNat) = 2 * g.getD 0 0 := by
      rw [show ((0:ℤ).toNat) = 0 from rfl, ifft2_zero, Finset.sum_const, Finset.card_range,
        dft_zero_of_len_one g h1, h1, nsmul_eq_mul]
      norm_num
    rw [hval]
  · intro h2 he
    rw [if_neg (by omega : ¬ g.length = 0), if_neg ?hout2]
    case hout2 =>
      rintro (hc | hc)
      · exact absurd hc (by norm_num)
      · have : (0:ℝ) < (g.length : ℝ) := by
          have : 0 < g.length := by omega
          exact_mod_cast this
        linarith
    have hspec : specAssemble g = some (fun k =>
        if k < g.length / 2 then dft g k
        else if 2 * g.length - g.length / 2 ≤ k then dft g (k - g.length)
        else 0) := by
      unfold specAssemble
      rw [if_neg (by omega), if_pos he]
    rw [hspec]
    show (if (0:ℤ) ≤ pyRound ((0:ℝ) * 2) ∧ pyRound ((0:ℝ) * 2) < (2 * (g.length:ℤ))
      then some (ifft2 (2 * g.length) (fun k =>
        if k < g.length / 2 then dft g k
        else if 2 * g.length - g.length / 2 ≤ k then dft g (k - g.length)
        else 0) (pyRound ((0:ℝ) * 2)).toNat)
      else some (g.getD (g.length - 1) 0)) = some (g.getD 0 0)
    rw [show (0:ℝ) * 2 = 0 by norm_num, pyRound_zero]
    rw [if_pos ⟨le_rfl, by
      have : 0 < g.length := by omega
      omega⟩]
    have hn0 : (g.length : ℂ) ≠ 0 := Nat.cast_ne_zero.mpr (by omega)
    have hval : ifft2 (2 * g.length) (fun k =>
        if k < g.length / 2 then dft g k
        else if 2 * g.length - g.length / 2 ≤ k then dft g (k - g.length)
        else 0) ((0:ℤ).toNat) = g.getD 0 0 := by
      rw [show ((0:ℤ).toNat) = 0 from rfl, ifft2_zero, sum_freq_even g h2 he, sum_dft g]
      push_cast
      field_simp
      ring
    rw [hval]
  · intro h3 ho
    rw [if_neg (by omega : ¬ g.length = 0), if_neg ?hout3]
    case hout3 =>
      rintro (hc | hc)
      · exact absurd hc (by norm_num)
      · have : (0:ℝ) < (g.length : ℝ) := by
          have : 0 < g.length := by omega
          exact_mod_cast this
        linarith
    have hspec : specAssemble g = none := by
      unfold specAssemble
      rw [if_neg (by omega), if_neg (by omega)]
    rw [hspec]

/-- C10 counterexample: with `delta = 0` and the size-3 grid `[0, 0, 0]`, the
call reaches the FFT branch and raises (modelled `none`) instead of returning
a value derived from the first grid sample. -/
theorem interpolate_odd_raises : FFTInterpolator.interpolate [0, 0, 0] 0 0 5 = none := by
  unfold FFTInterpolator.interpolate
  rw [if_neg (by norm_num : ¬ (0:ℝ) ≠ 0)]
  rw [if_neg (by norm_num : ¬ ([0, 0, 0] : List ℂ).length = 0)]
  rw [if_neg ?hout]
  case hout =>
    rintro (hc | hc) <;> norm_num at hc
  rfl

/-- C8 counterexample: `t = 3/2` on the two-sample grid `[0, 1]` with `δ = 1`,
`t0 = 0` lies outside the sample span `[t0, t0+(n-1)δ] = [0, 1]`, yet the
interpolator does not return the boundary linear extrapolation (which would be
`3/2`): it takes the FFT branch and returns `(1-i)/2`.  Moreover on the
size-1 signal `[1]` the in-range query `t = 0` returns `2` (twice the single
sample), not the degenerate constant `1`. -/
theorem interpolate_edge_counterexample :
    ((1:ℝ) < 3/2 ∧ (3/2:ℝ) < 2) ∧
    FFTInterpolator.interpolate [0, 1] 1 0 (3/2) = some ((1 - Complex.I)/2) ∧
    FFTInterpolator.interpolate [0, 1] 1 0 (3/2) ≠ some ((3:ℂ)/2) ∧
    FFTInterpolator.interpolate [1] 1 0 0 = some 2 ∧
    FFTInterpolator.interpolate [1] 1 0 0 ≠ some 1 := by
  refine ⟨⟨by norm_num, by norm_num⟩, interp_cex_gap_eval, ?_, interp_cex_single_eval, ?_⟩
  · rw [interp_cex_gap_eval]
    intro hcontra
    rw [Option.some.injEq] at hcontra
    have him := congrArg Complex.im hcontra
    simp [Complex.div_im] at him
  · rw [interp_cex_single_eval]
    intro hcontra
    rw [Option.some.injEq] at hcontra
    norm_num at hcontra

/-- Witness for C8 amended on concrete grids, one instance per conjunct. -/
theorem interpolate_edge_policy_witness :
    (1:ℝ) ≠ 0 ∧
    FFTInterpolator.interpolate [0, 1] 1 0 (-1) =
      some (([0, 1] : List ℂ).getD 0 0 +
        (([0, 1] : List ℂ).getD 1 0 - ([0, 1] : List ℂ).getD 0 0) / ((1:ℝ) : ℂ) *
          (((-1:ℝ) - 0 : ℝ) : ℂ)) ∧
    FFTInterpolator.interpolate [0, 1] 1 0 3 =
      some (([0, 1] : List ℂ).getD (([0, 1] : List ℂ).length - 1) 0 +
        (([0, 1] : List ℂ).getD (([0, 1] : List ℂ).length - 1) 0 -
          ([0, 1] : List ℂ).getD (([0, 1] : List ℂ).length - 2) 0) / ((1:ℝ) : ℂ) *
          (((3:ℝ) - (0 + (([0, 1] : List ℂ).length - 1) * 1) : ℝ) : ℂ)) ∧
    FFTInterpolator.interpolate ([] : List ℂ) 1 0 5 = some 0 ∧
    FFTInterpolator.interpolate [7] 1 0 9 = some (([7] : List ℂ).getD 0 0) := by
  refine ⟨by norm_num, ?_, ?_, ?_, ?_⟩
  · exact (interpolate_edge_policy [0, 1] 1 0 (-1) (by norm_num)).1 (by norm_num) (by norm_num)
  · exact (interpolate_edge_policy [0, 1] 1 0 3 (by norm_num)).2.1 (by norm_num) (by norm_num)
  · exact (interpolate_edge_policy ([] : List ℂ) 1 0 5 (by norm_num)).2.2.1 rfl
  · exact (interpolate_edge_policy [7] 1 0 9 (by norm_num)).2.2.2 rfl (Or.inr (by norm_num))

/-- Witness for C10 amended on concrete grids, one instance per conjunct. -/
theorem interpolate_delta_zero_witness :
    FFTInterpolator.interpolate ([] : List ℂ) 0 0 3 = some 0 ∧
    FFTInterpolator.interpolate [5] 0 0 3 = some (2 * (([5] : List ℂ).getD 0 0)) ∧
    FFTInterpolator.interpolate [4, 9] 0 0 3 = some (([4, 9] : List ℂ).getD 0 0) ∧
    FFTInterpolator.interpolate [1, 1, 1] 0 0 3 = none :=
  ⟨(interpolate_delta_zero ([] : List ℂ) 0 3).1 rfl,
    (interpolate_delta_zero [5] 0 3).2.1 rfl,
    (interpolate_delta_zero [4, 9] 0 3).2.2.1 (by norm_num) rfl,
    (interpolate_delta_zero [1, 1, 1] 0 3).2.2.2 (by norm_num) rfl⟩

end
